import Mathlib

/-!
Verification of the MineLang transpiler core (`mineLang.py`): the lexer
(`lex`) and the translator/emitter (`Emitter`, `translate`) are embedded
as executable Lean functions, and the specification's claims about them
are proved or refuted.  Character classes (`isalpha`, `isupper`, ...) are
modelled on the ASCII range; Python's `str` values are modelled by `String`
and the emitter's current-line piece list by its concatenation.
-/

namespace MineLang

/-- The keyword-substitution table `KEYWORDS_MAP` of the source, as an
association list (iteration order is irrelevant: keys are distinct). -/
def KEYWORDS_MAP : List (String × String) :=
  [("OPERACAO", "def"),
   ("SE_RISCO", "if"),
   ("SENAO_OPERADOR", "else"),
   ("ENQUANTO_ESCANEANDO", "while"),
   ("ALERTAR_EQUIPE", "print"),
   ("MARCAR_AREA", "="),
   ("INTENSIFICAR", "+"),
   ("DESATIVAR", "-"),
   ("AMPLIFICAR", "*"),
   ("DISTRIBUIR_RECURSOS", "/"),
   ("RETORNAR_STATUS", "return")]

/-- `HEADER_TOKENS` of the source: mapped spellings that open a block. -/
def HEADER_TOKENS : List String := ["def", "if", "else", "while"]

/-- `NEED_SPACE_AFTER` of the source: mapped spellings followed by a space. -/
def NEED_SPACE_AFTER : List String := ["def", "return", "if", "while"]

/-- `RELATIONALS` of the source. -/
def RELATIONALS : List String := ["==", "!=", ">", "<", ">=", "<="]

/-- `MULTI_CHAR_OPS` of the source (set union modelled as list append;
membership is what matters). -/
def MULTI_CHAR_OPS : List String :=
  RELATIONALS ++ ["//", "**", "<<", ">>", "+=", "-=", "*=", "/=", "%="]

/-- The `Token` dataclass of the source. -/
structure Token where
  kind : String
  value : String
  line : Nat
  col : Nat
deriving DecidableEq, Repr

/-- Failure modes of `lex` (`LexerError` in the source), one constructor per
`raise` site, carrying the same positional payload.  `outOfFuel` is a
modelling sentinel for the structural-recursion fuel of `lexRun`; it is
unreachable from `lex` (see `lex_ne_outOfFuel`). -/
inductive LexErr where
  | unclosedComment (line col : Nat)
  | unclosedString (line col : Nat)
  | unknownKeyword (id : String) (line col : Nat)
  | invalidChar (c : Char) (line col : Nat)
  | indexOutOfRange (line col : Nat)
  | outOfFuel
deriving DecidableEq, Repr

/-- Python `ch.isalpha() or ch == "_"` (ASCII model). -/
def isIdentStart (c : Char) : Bool := c.isAlpha || c = '_'

/-- Python `peek().isalnum() or peek() == "_"` (ASCII model). -/
def isIdentChar (c : Char) : Bool := c.isAlphanum || c = '_'

/-- Python `str.isupper()` on identifiers (ASCII model): at least one cased
character and no lower-case character. -/
def pyIsUpper (s : String) : Bool :=
  s.data.any Char.isAlpha && s.data.all (fun c => !c.isLower)

/-- Python whitespace as stripped by `str.rstrip` / tested by `str.strip`
(ASCII model: space, tab, newline, carriage return, vertical tab, form feed). -/
def isPySpace (c : Char) : Bool :=
  c = ' ' || c = '\t' || c = '\n' || c = '\r' || c = Char.ofNat 11 || c = Char.ofNat 12

/-- The continue-condition of the line-comment loop (`peek() != "\\n"`). -/
def notNL (d : Char) : Bool := d ≠ '\n'

/-- The body of the block-comment loop of `lex`: consumes characters of
`/* ... */` after the opening `/*`, tracking line/column, and returns the
rest of the input and the updated position, or `none` at end of input
(the unterminated-comment error case). -/
def scanBlockComment : List Char → Nat → Nat → Option (List Char × Nat × Nat)
  | [], _, _ => none
  | c :: cs, line, col =>
    if c = '\n' then scanBlockComment cs (line + 1) 1
    else if c = '*' ∧ cs.head? = some '/' then some (cs.tail, line, col + 2)
    else scanBlockComment cs line (col + 1)

/-- The body of the string-literal loop of `lex`: consumes characters after
the opening quote with the `escaped` flag, returning the consumed buffer
(closing quote included), the rest, and the updated position, or `none`
at end of input (the unterminated-string error case). -/
def scanString : List Char → Bool → Nat → Nat → Option (List Char × List Char × Nat × Nat)
  | [], _, _, _ => none
  | c :: cs, escaped, line, col =>
    let line2 := if c = '\n' then line + 1 else line
    let col2 := if c = '\n' then 1 else col + 1
    if escaped then
      (scanString cs false line2 col2).map (fun r => (c :: r.1, r.2))
    else if c = '\\' then
      (scanString cs true line2 col2).map (fun r => (c :: r.1, r.2))
    else if c = '"' then
      some ([c], cs, line2, col2)
    else
      (scanString cs false line2 col2).map (fun r => (c :: r.1, r.2))

/-- Whether the string scanner, started with flag `escaped`, will find a
closing (unescaped) quote before end of input. -/
def hasClose : Bool → List Char → Bool
  | _, [] => false
  | true, _ :: cs => hasClose false cs
  | false, c :: cs =>
    if c = '\\' then hasClose true cs
    else if c = '"' then true
    else hasClose false cs

/-- The characters of a number literal after its first digit (the source's
number loop: digits, plus at most one dot given `isFloat`). -/
def numTail : List Char → Bool → List Char
  | [], _ => []
  | d :: ds, isFloat =>
    if d.isDigit then d :: numTail ds isFloat
    else if d = '.' ∧ ¬ isFloat then d :: numTail ds true
    else []

/-- The rest of the input after a number literal's tail. -/
def numRest : List Char → Bool → List Char
  | [], _ => []
  | d :: ds, isFloat =>
    if d.isDigit then numRest ds isFloat
    else if d = '.' ∧ ¬ isFloat then numRest ds true
    else d :: ds

/-- The single-character-symbol table of `lex`: the membership test on
`"\x7b\x7d()[];.,:+-*/%<>=!&|^~"` followed by the kind dictionary with
default `"OP"`. -/
def symKind (c : Char) : Option String :=
  if c = '{' then some "LBRACE"
  else if c = '}' then some "RBRACE"
  else if c = '(' then some "LPAREN"
  else if c = ')' then some "RPAREN"
  else if c = '[' then some "LBRACK"
  else if c = ']' then some "RBRACK"
  else if c = ';' then some "SEMI"
  else if c = ',' then some "COMMA"
  else if c = '.' then some "DOT"
  else if c = ':' ∨ c = '+' ∨ c = '-' ∨ c = '*' ∨ c = '/' ∨ c = '%' ∨ c = '<' ∨ c = '>'
       ∨ c = '=' ∨ c = '!' ∨ c = '&' ∨ c = '|' ∨ c = '^' ∨ c = '~' then some "OP"
  else none

/-- The main scanning loop of `lex`, one iteration per recursive call, with
structural fuel (each iteration consumes at least one character, so any
`fuel > cs.length` never exhausts it; see `lexRun_ne_outOfFuel`).
Branches appear in the source's priority order.  On input ending in a bare
`<` or `>` the source program crashes with an uncaught `IndexError`
(`two = ch + ""` is in `MULTI_CHAR_OPS` and the second `advance()` reads
past the end); that crash is modelled by `LexErr.indexOutOfRange`. -/
def lexRun : Nat → List Char → Nat → Nat → Except LexErr (List Token)
  | 0, _, _, _ => .error .outOfFuel
  | _ + 1, [], line, col => .ok [⟨"NEWLINE", "\n", line, col⟩]
  | fuel + 1, c :: rest, line, col =>
    if c = '\n' then
      (lexRun fuel rest (line + 1) 1).map (fun ts => ⟨"NEWLINE", "\n", line, col⟩ :: ts)
    else if c = ' ' ∨ c = '\t' ∨ c = '\r' then
      lexRun fuel rest line (col + 1)
    else if c = '#' then
      lexRun fuel (rest.dropWhile notNL) line
        (col + 1 + (rest.takeWhile notNL).length)
    else if c = '/' ∧ rest.head? = some '*' then
      match scanBlockComment rest.tail line (col + 2) with
      | none => .error (.unclosedComment line col)
      | some (rem, line2, col2) => lexRun fuel rem line2 col2
    else if c = '"' then
      match scanString rest false line (col + 1) with
      | none => .error (.unclosedString line col)
      | some (buf, rem, line2, col2) =>
        (lexRun fuel rem line2 col2).map
          (fun ts => ⟨"STRING", String.mk ('"' :: buf), line, col⟩ :: ts)
    else if isIdentStart c then
      let ident := String.mk (c :: rest.takeWhile isIdentChar)
      if pyIsUpper ident ∧ (KEYWORDS_MAP.lookup ident).isNone then
        .error (.unknownKeyword ident line col)
      else
        (lexRun fuel (rest.dropWhile isIdentChar) line
            (col + 1 + (rest.takeWhile isIdentChar).length)).map
          (fun ts => ⟨"IDENT", ident, line, col⟩ :: ts)
    else if c.isDigit then
      (lexRun fuel (numRest rest false) line (col + 1 + (numTail rest false).length)).map
        (fun ts => ⟨"NUMBER", String.mk (c :: numTail rest false), line, col⟩ :: ts)
    else if String.mk (c :: rest.take 1) ∈ MULTI_CHAR_OPS then
      match rest with
      | [] => .error (.indexOutOfRange line col)
      | _ :: rest2 =>
        (lexRun fuel rest2 line (col + 2)).map
          (fun ts => ⟨"OP", String.mk (c :: rest.take 1), line, col⟩ :: ts)
    else
      match symKind c with
      | some k =>
        (lexRun fuel rest line (col + 1)).map
          (fun ts => ⟨k, String.mk [c], line, col⟩ :: ts)
      | none => .error (.invalidChar c line col)

/-- The `lex` function of the source: scan from position 1:1.  The fuel
`s.length + 1` suffices because every iteration consumes a character. -/
def lex (s : String) : Except LexErr (List Token) :=
  lexRun (s.data.length + 1) s.data 1 1

/-- Failure modes of `translate` (`ParseError` in the source), one
constructor per `raise` site. -/
inductive ParseErr where
  | unmatchedClose
  | unclosed
  | unexpected (kind value : String) (line col : Nat)
deriving DecidableEq, Repr

/-- The `Emitter` class of the source.  Its `current` list of string pieces
is modelled by their concatenation (the source only ever inspects emptiness,
the last character, and the concatenation of the pieces). -/
structure Emitter where
  lines : List String
  current : String
  indent : Nat
  needIndent : Bool
deriving DecidableEq, Repr

/-- `Emitter.__init__`. -/
def Emitter.init : Emitter := ⟨[], "", 0, true⟩

/-- Python `str.rstrip()` (ASCII whitespace model). -/
def pyRstrip (s : String) : String :=
  ⟨(s.data.reverse.dropWhile isPySpace).reverse⟩

/-- `Emitter._emit_indent_if_needed`. -/
def Emitter.indentIfNeeded (e : Emitter) : Emitter :=
  if e.needIndent then
    { e with current := e.current ++ String.mk (List.replicate (e.indent * 4) ' '),
             needIndent := false }
  else e

/-- `Emitter.emit_text`. -/
def Emitter.emitText (e : Emitter) (text : String) : Emitter :=
  let e := e.indentIfNeeded
  { e with current := e.current ++ text }

/-- `Emitter.emit_space`: appends one space unless the line already ends
with one (the source tests the last appended piece; on reachable states
that is the last character of the concatenation). -/
def Emitter.emitSpace (e : Emitter) : Emitter :=
  if e.indentIfNeeded.current.data.getLast? = some ' ' then e.indentIfNeeded
  else { e.indentIfNeeded with current := e.indentIfNeeded.current ++ " " }

/-- `Emitter.newline`: right-strip the current line and finalize it. -/
def Emitter.newline (e : Emitter) : Emitter :=
  { e with lines := e.lines ++ [pyRstrip e.current], current := "", needIndent := true }

/-- `Emitter.open_block`. -/
def Emitter.openBlock (e : Emitter) : Emitter :=
  { e with indent := e.indent + 1 }

/-- `Emitter.close_block`: error when depth is already zero; otherwise
dedent and finalize the current line when it has visible content
(Python's `"".join(current).strip()` test). -/
def Emitter.closeBlock (e : Emitter) : Except ParseErr Emitter :=
  if e.indent = 0 then .error .unmatchedClose
  else if e.current.data.any (fun c => !isPySpace c) then
    .ok { e with indent := e.indent - 1 }.newline
  else .ok { e with indent := e.indent - 1 }

/-- Python's `"\n".join`. -/
def joinLines : List String → String
  | [] => ""
  | [l] => l
  | l :: ls => l ++ "\n" ++ joinLines ls

/-- `Emitter.get_output`: flush an unfinished line, drop trailing empty
lines, join with newlines and terminate with one newline. -/
def Emitter.getOutput (e : Emitter) : String :=
  joinLines
    (((if e.current = "" then e else e.newline).lines.reverse.dropWhile
        (fun l => l = "")).reverse) ++ "\n"

/-- The translator's mutable state: the emitter plus the two booleans of
`translate`. -/
structure TState where
  emit : Emitter
  pendingHeader : Bool
  justClosed : Bool
deriving DecidableEq, Repr

/-- The initial state of `translate`. -/
def TState.init : TState := ⟨Emitter.init, false, false⟩

/-- `emit_mapped_ident` of the source: map through `KEYWORDS_MAP`, add the
mandatory space after the `NEED_SPACE_AFTER` spellings, and set
`pending_header` for the `HEADER_TOKENS` spellings. -/
def emitMappedIdent (st : TState) (value : String) : TState :=
  match KEYWORDS_MAP.lookup value with
  | some mapped =>
    let e := st.emit.emitText mapped
    let e := if mapped ∈ NEED_SPACE_AFTER then e.emitSpace else e
    { st with emit := e,
              pendingHeader := if mapped ∈ HEADER_TOKENS then true else st.pendingHeader }
  | none => { st with emit := st.emit.emitText value }

/-- One iteration of the token loop of `translate`, in the source's branch
order. -/
def translateStep (st : TState) (t : Token) : Except ParseErr TState :=
  if t.kind = "NEWLINE" ∨ t.kind = "SEMI" then
    .ok { st with emit := st.emit.newline, justClosed := false }
  else if t.kind = "LBRACE" then
    let e := if st.pendingHeader then st.emit.emitText ":" else st.emit
    .ok { st with emit := e.newline.openBlock, pendingHeader := false }
  else if t.kind = "RBRACE" then
    (st.emit.closeBlock).map (fun e => { st with emit := e, justClosed := true })
  else if t.kind = "STRING" ∨ t.kind = "NUMBER" then
    .ok { st with emit := st.emit.emitText t.value, justClosed := false }
  else if t.kind = "IDENT" then
    if t.value = "SENAO_OPERADOR" ∧ st.justClosed then
      .ok { emitMappedIdent st t.value with pendingHeader := true, justClosed := false }
    else
      .ok { emitMappedIdent st t.value with justClosed := false }
  else if t.kind = "OP" then
    .ok { st with emit := st.emit.emitText t.value, justClosed := false }
  else if t.kind = "LPAREN" ∨ t.kind = "RPAREN" ∨ t.kind = "LBRACK" ∨ t.kind = "RBRACK"
       ∨ t.kind = "COMMA" ∨ t.kind = "DOT" then
    .ok { st with emit := st.emit.emitText t.value, justClosed := false }
  else
    .error (.unexpected t.kind t.value t.line t.col)

/-- The token loop of `translate`, from an arbitrary state. -/
def runFrom (st : TState) (ts : List Token) : Except ParseErr TState :=
  ts.foldlM translateStep st

/-- The token loop of `translate`, from the initial state. -/
def runTranslate (ts : List Token) : Except ParseErr TState :=
  runFrom TState.init ts

/-- The `translate` function of the source: run the loop, assemble the
output, and fail when blocks remain open. -/
def translate (ts : List Token) : Except ParseErr String :=
  match runTranslate ts with
  | .error e => .error e
  | .ok st =>
    if st.emit.indent ≠ 0 then .error .unclosed
    else .ok st.emit.getOutput

/-- A combined error type for the lex-then-translate pipeline of `main`. -/
inductive CompErr where
  | lexical (e : LexErr)
  | translation (e : ParseErr)
deriving DecidableEq, Repr

/-- The lex-then-translate pipeline of `main`. -/
def compile (s : String) : Except CompErr String :=
  match lex s with
  | .error e => .error (.lexical e)
  | .ok ts =>
    match translate ts with
    | .error e => .error (.translation e)
    | .ok out => .ok out

/-- Length of the last (possibly unfinished) line of a consumed chunk. -/
def lineLen (p : List Char) : Nat :=
  (p.reverse.takeWhile (fun c => c ≠ '\n')).length

/-- The 1-based line number after consuming chunk `p`, starting at `line`:
the scanner increments the line at each newline. -/
def lineAfter (line : Nat) (p : List Char) : Nat :=
  line + p.count '\n'

/-- The 1-based column after consuming chunk `p`, starting at `col`: the
scanner increments the column per character and resets it to 1 at each
newline. -/
def colAfter (col : Nat) (p : List Char) : Nat :=
  if '\n' ∈ p then 1 + lineLen p else col + p.length

/-- The number of tokens of kind `k` in a token sequence. -/
def countKind (k : String) (ts : List Token) : Nat :=
  (ts.filter (fun t => t.kind = k)).length

/-- The closed set of token kinds the lexer can emit. -/
def knownKinds : List String :=
  ["NEWLINE", "SEMI", "LBRACE", "RBRACE", "STRING", "NUMBER", "IDENT",
   "OP", "LPAREN", "RPAREN", "LBRACK", "RBRACK", "COMMA", "DOT"]

/-- Emitter invariant: every finalized line is already right-stripped. -/
def RstrippedLines (e : Emitter) : Prop :=
  ∀ l ∈ e.lines, pyRstrip l = l

/-- Well-formedness of a token as guaranteed by the lexer: its kind is one
of the closed set, and an identifier value is never an unknown all-upper
pseudo-keyword. -/
def TokOk (t : Token) : Prop :=
  t.kind ∈ knownKinds ∧
  (t.kind = "IDENT" → pyIsUpper t.value = true → (KEYWORDS_MAP.lookup t.value).isSome)

/-! ### Generic helper lemmas -/

theorem except_map_eq_error {ε α β : Type} (x : Except ε α) (f : α → β) (e : ε) :
    x.map f = .error e ↔ x = .error e := by
  cases x <;> simp [Except.map]

theorem except_map_eq_ok {ε α β : Type} (x : Except ε α) (f : α → β) (b : β) :
    x.map f = .ok b ↔ ∃ a, x = .ok a ∧ f a = b := by
  cases x <;> simp [Except.map]

theorem takeWhile_append_false {α : Type} {q : α → Bool} {x : α} :
    ∀ {l1 : List α} (l2 : List α), x ∈ l1 → q x = false →
      (l1 ++ l2).takeWhile q = l1.takeWhile q
  | [], _, hx, _ => absurd hx (List.not_mem_nil x)
  | a :: t, l2, hx, hqx => by
    by_cases ha : q a
    · have hxt : x ∈ t := by
        rcases List.mem_cons.mp hx with h | h
        · subst h; rw [ha] at hqx; cases hqx
        · exact h
      simp only [List.cons_append, List.takeWhile_cons, ha]
      rw [takeWhile_append_false l2 hxt hqx]
    · simp only [List.cons_append, List.takeWhile_cons, Bool.not_eq_true] at *
      simp [ha]

theorem takeWhile_append_true {α : Type} {q : α → Bool} :
    ∀ {l1 : List α} (l2 : List α), (∀ x ∈ l1, q x = true) →
      (l1 ++ l2).takeWhile q = l1 ++ l2.takeWhile q
  | [], _, _ => rfl
  | a :: t, l2, h => by
    have ha : q a = true := h a (List.mem_cons_self a t)
    simp only [List.cons_append, List.takeWhile_cons, ha, if_true]
    rw [takeWhile_append_true l2 (fun x hx => h x (List.mem_cons_of_mem a hx))]

theorem dropWhile_head_false {α : Type} {q : α → Bool} :
    ∀ {l : List α} {b : α} {m : List α}, l.dropWhile q = b :: m → q b = false
  | [], _, _, h => by cases h
  | a :: t, b, m, h => by
    by_cases ha : q a
    · rw [List.dropWhile_cons_of_pos ha] at h
      exact dropWhile_head_false h
    · rw [List.dropWhile_cons_of_neg ha] at h
      cases h
      simpa using ha

theorem dropWhile_idem {α : Type} (q : α → Bool) (l : List α) :
    (l.dropWhile q).dropWhile q = l.dropWhile q := by
  cases h : l.dropWhile q with
  | nil => rfl
  | cons b m => rw [List.dropWhile_cons_of_neg (by simp [dropWhile_head_false h])]

/-! ### Position-tracking lemmas -/

theorem lineAfter_nil (line : Nat) : lineAfter line [] = line := by
  simp [lineAfter]

theorem colAfter_nil (col : Nat) : colAfter col [] = col := by
  simp [colAfter]

theorem lineAfter_append (line : Nat) (m p : List Char) :
    lineAfter (lineAfter line m) p = lineAfter line (m ++ p) := by
  simp [lineAfter, List.count_append]
  omega

theorem lineLen_append_of_mem {p : List Char} (m : List Char) (h : '\n' ∈ p) :
    lineLen (m ++ p) = lineLen p := by
  unfold lineLen
  rw [List.reverse_append,
      takeWhile_append_false m.reverse (List.mem_reverse.mpr h) (by simp)]

theorem lineLen_append_of_not_mem {p : List Char} (m : List Char) (h : '\n' ∉ p) :
    lineLen (m ++ p) = lineLen m + p.length := by
  unfold lineLen
  rw [List.reverse_append,
      takeWhile_append_true m.reverse
        (fun x hx => by
          simp only [decide_eq_true_eq]
          intro hxn
          exact h (hxn ▸ List.mem_reverse.mp hx))]
  simp [Nat.add_comm]

theorem colAfter_append (col : Nat) (m p : List Char) :
    colAfter (colAfter col m) p = colAfter col (m ++ p) := by
  by_cases hp : '\n' ∈ p
  · simp [colAfter, List.mem_append, hp, lineLen_append_of_mem m hp]
  · by_cases hm : '\n' ∈ m
    · simp [colAfter, List.mem_append, hp, hm, lineLen_append_of_not_mem m hp]
      omega
    · simp [colAfter, List.mem_append, hp, hm]
      omega

theorem lineAfter_cons (line : Nat) (c : Char) (p : List Char) :
    lineAfter line (c :: p) = lineAfter (if c = '\n' then line + 1 else line) p := by
  simp only [lineAfter, List.count_cons]
  by_cases hc : c = '\n'
  · simp [hc]
    omega
  · simp [hc]

theorem colAfter_single (col : Nat) (c : Char) :
    colAfter col [c] = if c = '\n' then 1 else col + 1 := by
  by_cases hc : c = '\n'
  · subst hc
    rw [colAfter, if_pos (by simp)]
    simp [lineLen]
  · rw [colAfter, if_neg (by simp [Ne.symm hc])]
    simp [hc]

theorem colAfter_cons (col : Nat) (c : Char) (p : List Char) :
    colAfter col (c :: p) = colAfter (if c = '\n' then 1 else col + 1) p := by
  have : c :: p = [c] ++ p := rfl
  rw [this, ← colAfter_append, colAfter_single]

/-! ### Specifications of the lexer's scanning helpers -/

theorem scanString_spec :
    ∀ (cs : List Char) (esc : Bool) (line col : Nat) (buf rest : List Char) (l2 c2 : Nat),
      scanString cs esc line col = some (buf, rest, l2, c2) →
      cs = buf ++ rest ∧ l2 = lineAfter line buf ∧ c2 = colAfter col buf ∧ buf ≠ []
  | [], _, _, _, _, _, _, _, h => by simp [scanString] at h
  | c :: cs, esc, line, col, buf, rest, l2, c2, h => by
    have hrec : ∀ esc2 buf1 rest1 lr cr,
        scanString cs esc2 (if c = '\n' then line + 1 else line)
          (if c = '\n' then 1 else col + 1) = some (buf1, rest1, lr, cr) →
        c :: buf1 = buf → rest1 = rest → lr = l2 → cr = c2 →
        c :: cs = buf ++ rest ∧ l2 = lineAfter line buf ∧ c2 = colAfter col buf ∧ buf ≠ [] := by
      intro esc2 buf1 rest1 lr cr hs hb hr hl hc
      obtain ⟨hcs, hl1, hc1, _⟩ := scanString_spec cs esc2 _ _ buf1 rest1 lr cr hs
      subst hb hr hl hc
      refine ⟨by simp [← hcs], ?_, ?_, by simp⟩
      · rw [lineAfter_cons, ← hl1]
      · rw [colAfter_cons, ← hc1]
    simp only [scanString] at h
    cases esc with
    | true =>
      simp only [if_true] at h
      rcases Option.map_eq_some'.mp h with ⟨⟨buf1, rest1, lr, cr⟩, hs, heq⟩
      simp only [Prod.mk.injEq] at heq
      exact hrec false buf1 rest1 lr cr hs heq.1 heq.2.1 heq.2.2.1 heq.2.2.2
    | false =>
      simp only [Bool.false_eq_true, if_false] at h
      by_cases hbs : c = '\\'
      · rw [if_pos hbs] at h
        rcases Option.map_eq_some'.mp h with ⟨⟨buf1, rest1, lr, cr⟩, hs, heq⟩
        simp only [Prod.mk.injEq] at heq
        exact hrec true buf1 rest1 lr cr hs heq.1 heq.2.1 heq.2.2.1 heq.2.2.2
      · rw [if_neg hbs] at h
        by_cases hq : c = '"'
        · rw [if_pos hq] at h
          simp only [Option.some.injEq, Prod.mk.injEq] at h
          obtain ⟨hb, hr, hl, hc⟩ := h
          subst hb hr hl hc
          have hcn : ¬ c = '\n' := by subst hq; decide
          refine ⟨rfl, ?_, ?_, by simp⟩
          · simp [lineAfter, hcn, List.count_cons]
          · rw [colAfter_single]
        · rw [if_neg hq] at h
          rcases Option.map_eq_some'.mp h with ⟨⟨buf1, rest1, lr, cr⟩, hs, heq⟩
          simp only [Prod.mk.injEq] at heq
          exact hrec false buf1 rest1 lr cr hs heq.1 heq.2.1 heq.2.2.1 heq.2.2.2

theorem scanBlockComment_spec :
    ∀ (cs : List Char) (line col : Nat) (rem : List Char) (l2 c2 : Nat),
      scanBlockComment cs line col = some (rem, l2, c2) →
      ∃ m, cs = m ++ rem ∧ l2 = lineAfter line m ∧ c2 = colAfter col m
  | [], _, _, _, _, _, h => by simp [scanBlockComment] at h
  | c :: cs, line, col, rem, l2, c2, h => by
    simp only [scanBlockComment] at h
    split_ifs at h with h1 h2
    · obtain ⟨m, hm, hl, hc⟩ := scanBlockComment_spec cs (line + 1) 1 rem l2 c2 h
      refine ⟨c :: m, by simp [← hm], ?_, ?_⟩
      · rw [lineAfter_cons, if_pos h1, hl]
      · rw [colAfter_cons, if_pos h1, hc]
    · obtain ⟨hstar, hhead⟩ := h2
      have hcs : cs = '/' :: cs.tail := by
        cases cs with
        | nil => simp at hhead
        | cons d ds => simp at hhead; simp [hhead]
      simp only [Option.some.injEq, Prod.mk.injEq] at h
      obtain ⟨hr, hl, hc⟩ := h
      refine ⟨[c, '/'], ?_, ?_, ?_⟩
      · rw [← hr]; exact congrArg (c :: ·) hcs
      · have : ¬ c = '\n' := h1
        simp [← hl, lineAfter, List.count_cons, this]
      · have hcn : '\n' ∉ [c, '/'] := by
          intro hmem
          rcases List.mem_cons.mp hmem with he | he
          · exact h1 he.symm
          · simp at he
        rw [colAfter, if_neg hcn, ← hc]
        simp
    · obtain ⟨m, hm, hl, hc⟩ := scanBlockComment_spec cs line (col + 1) rem l2 c2 h
      refine ⟨c :: m, by simp [← hm], ?_, ?_⟩
      · rw [lineAfter_cons, if_neg h1, hl]
      · rw [colAfter_cons, if_neg h1, hc]

theorem numTail_append_numRest :
    ∀ (cs : List Char) (b : Bool), numTail cs b ++ numRest cs b = cs
  | [], _ => rfl
  | d :: ds, b => by
    simp only [numTail, numRest]
    split_ifs with h1 h2
    · simp [numTail_append_numRest ds b]
    · simp [numTail_append_numRest ds true]
    · rfl

theorem mem_numTail :
    ∀ (cs : List Char) (b : Bool) (x : Char), x ∈ numTail cs b → x.isDigit ∨ x = '.'
  | [], _, _, h => by simp [numTail] at h
  | d :: ds, b, x, h => by
    simp only [numTail] at h
    split_ifs at h with h1 h2
    · rcases List.mem_cons.mp h with he | he
      · exact Or.inl (he ▸ h1)
      · exact mem_numTail ds b x he
    · rcases List.mem_cons.mp h with he | he
      · exact Or.inr (he ▸ h2.1)
      · exact mem_numTail ds true x he
    · simp at h

theorem newline_not_mem_numTail (cs : List Char) (b : Bool) : '\n' ∉ numTail cs b := by
  intro h
  rcases mem_numTail cs b '\n' h with hd | hd
  · simp [Char.isDigit] at hd
  · simp at hd

theorem scanString_rest_lt {cs : List Char} {esc : Bool} {line col : Nat}
    {buf rest : List Char} {l2 c2 : Nat}
    (h : scanString cs esc line col = some (buf, rest, l2, c2)) :
    rest.length < cs.length := by
  obtain ⟨hcs, -, -, hne⟩ := scanString_spec cs esc line col buf rest l2 c2 h
  subst hcs
  cases buf with
  | nil => exact absurd rfl hne
  | cons b bs => simp [List.length_append]; omega

theorem scanBlockComment_rest_le {cs : List Char} {line col : Nat}
    {rem : List Char} {l2 c2 : Nat}
    (h : scanBlockComment cs line col = some (rem, l2, c2)) :
    rem.length ≤ cs.length := by
  obtain ⟨m, hcs, -, -⟩ := scanBlockComment_spec cs line col rem l2 c2 h
  subst hcs
  simp [List.length_append]

theorem numRest_length_le (cs : List Char) (b : Bool) :
    (numRest cs b).length ≤ cs.length := by
  conv_rhs => rw [← numTail_append_numRest cs b]
  simp [List.length_append]

theorem dropWhile_length_le {α : Type} (q : α → Bool) (l : List α) :
    (l.dropWhile q).length ≤ l.length :=
  (List.dropWhile_sublist q).length_le

/-- The fuel sentinel is unreachable whenever the fuel exceeds the input
length; in particular `lex` never produces it. -/
theorem lexRun_ne_outOfFuel :
    ∀ (fuel : Nat) (cs : List Char) (line col : Nat), cs.length < fuel →
      lexRun fuel cs line col ≠ .error .outOfFuel
  | 0, _, _, _, h => by omega
  | _ + 1, [], _, _, _ => by simp [lexRun]
  | fuel + 1, c :: rest, line, col, hlen => by
    have hrest : rest.length < fuel := by
      simp only [List.length_cons] at hlen; omega
    intro h
    simp only [lexRun] at h
    split_ifs at h with h1 h2 h3 h4 h5 h6 hup h7 hop
    · rw [except_map_eq_error] at h
      exact lexRun_ne_outOfFuel fuel rest (line + 1) 1 hrest h
    · exact lexRun_ne_outOfFuel fuel rest line (col + 1) hrest h
    · exact lexRun_ne_outOfFuel fuel (rest.dropWhile notNL) line _
        (Nat.lt_of_le_of_lt (dropWhile_length_le _ rest) hrest) h
    · cases hm : scanBlockComment rest.tail line (col + 2) with
      | none => rw [hm] at h; simp at h
      | some r =>
        obtain ⟨rem, l2, c2⟩ := r
        rw [hm] at h
        simp only at h
        have hle : rem.length ≤ rest.tail.length := scanBlockComment_rest_le hm
        have : rem.length < fuel :=
          Nat.lt_of_le_of_lt (Nat.le_trans hle (List.length_tail rest ▸ Nat.sub_le _ 1)) hrest
        exact lexRun_ne_outOfFuel fuel rem l2 c2 this h
    · cases hm : scanString rest false line (col + 1) with
      | none => rw [hm] at h; simp at h
      | some r =>
        obtain ⟨buf, rem, l2, c2⟩ := r
        rw [hm] at h
        simp only at h
        rw [except_map_eq_error] at h
        have : rem.length < fuel := Nat.lt_trans (scanString_rest_lt hm) hrest
        exact lexRun_ne_outOfFuel fuel rem l2 c2 this h
    · simp at h
    · rw [except_map_eq_error] at h
      exact lexRun_ne_outOfFuel fuel (rest.dropWhile isIdentChar) line _
        (Nat.lt_of_le_of_lt (dropWhile_length_le _ rest) hrest) h
    · rw [except_map_eq_error] at h
      exact lexRun_ne_outOfFuel fuel (numRest rest false) line _
        (Nat.lt_of_le_of_lt (numRest_length_le rest false) hrest) h
    · cases rest with
      | nil => simp at h
      | cons d rest2 =>
        simp only at h
        rw [except_map_eq_error] at h
        have : rest2.length < fuel := by
          simp only [List.length_cons] at hrest; omega
        exact lexRun_ne_outOfFuel fuel rest2 line (col + 2) this h
    · cases hs : symKind c with
      | none => rw [hs] at h; simp at h
      | some k =>
        rw [hs] at h
        simp only at h
        rw [except_map_eq_error] at h
        exact lexRun_ne_outOfFuel fuel rest line (col + 1) hrest h

/-- `lex` never fails with the fuel sentinel. -/
theorem lex_ne_outOfFuel (s : String) : lex s ≠ .error .outOfFuel :=
  lexRun_ne_outOfFuel (s.data.length + 1) s.data 1 1 (Nat.lt_succ_self _)

set_option maxHeartbeats 1600000 in
theorem symKind_spec {c : Char} {k : String} (h : symKind c = some k) :
    k ∈ knownKinds ∧ k ≠ "IDENT" := by
  unfold symKind at h
  split_ifs at h
  all_goals try (injection h with h2; subst h2; exact ⟨by simp [knownKinds], by simp⟩)

theorem TokOk_of_kind {kind value : String} {line col : Nat}
    (hk : kind ∈ knownKinds) (hne : kind ≠ "IDENT") :
    TokOk ⟨kind, value, line, col⟩ :=
  ⟨hk, fun he => absurd he hne⟩

/-- Every token emitted by the scanning loop has a known kind, and an
identifier token is never an unknown all-upper pseudo-keyword (the loop
raised `unknownKeyword` instead of emitting one). -/
theorem lexRun_ok_tokens :
    ∀ (fuel : Nat) (cs : List Char) (line col : Nat) (ts : List Token),
      lexRun fuel cs line col = .ok ts → ∀ t ∈ ts, TokOk t
  | 0, _, _, _, _, h => by simp [lexRun] at h
  | _ + 1, [], _, _, ts, h => by
    simp only [lexRun, Except.ok.injEq] at h
    subst h
    intro t ht
    simp only [List.mem_singleton] at ht
    subst ht
    exact TokOk_of_kind (by decide) (by decide)
  | fuel + 1, c :: rest, line, col, ts, h => by
    simp only [lexRun] at h
    split_ifs at h with h1 h2 h3 h4 h5 h6 h7 hop
    · rw [except_map_eq_ok] at h
      obtain ⟨ts2, hrec, hcons⟩ := h
      subst hcons
      intro t ht
      rcases List.mem_cons.mp ht with he | ht2
      · subst he; exact TokOk_of_kind (by decide) (by decide)
      · exact lexRun_ok_tokens fuel rest (line + 1) 1 ts2 hrec t ht2
    · exact lexRun_ok_tokens fuel rest line (col + 1) ts h
    · exact lexRun_ok_tokens fuel (rest.dropWhile notNL) line _ ts h
    · cases hm : scanBlockComment rest.tail line (col + 2) with
      | none => rw [hm] at h; simp at h
      | some r =>
        obtain ⟨rem, l2, c2⟩ := r
        rw [hm] at h
        simp only at h
        exact lexRun_ok_tokens fuel rem l2 c2 ts h
    · cases hm : scanString rest false line (col + 1) with
      | none => rw [hm] at h; simp at h
      | some r =>
        obtain ⟨buf, rem, l2, c2⟩ := r
        rw [hm] at h
        simp only at h
        rw [except_map_eq_ok] at h
        obtain ⟨ts2, hrec, hcons⟩ := h
        subst hcons
        intro t ht
        rcases List.mem_cons.mp ht with he | ht2
        · subst he; exact TokOk_of_kind (by decide) (by decide)
        · exact lexRun_ok_tokens fuel rem l2 c2 ts2 hrec t ht2
    · rw [except_map_eq_ok] at h
      obtain ⟨ts2, hrec, hcons⟩ := h
      subst hcons
      intro t ht
      rcases List.mem_cons.mp ht with he | ht2
      · subst he
        refine ⟨(by simp [knownKinds] : ("IDENT" : String) ∈ knownKinds), fun _ hupper => ?_⟩
        cases hlk : KEYWORDS_MAP.lookup (String.mk (c :: rest.takeWhile isIdentChar)) with
        | none => exact absurd ⟨hupper, by simp [hlk]⟩ h7
        | some v => simp
      · exact lexRun_ok_tokens fuel (rest.dropWhile isIdentChar) line _ ts2 hrec t ht2
    · rw [except_map_eq_ok] at h
      obtain ⟨ts2, hrec, hcons⟩ := h
      subst hcons
      intro t ht
      rcases List.mem_cons.mp ht with he | ht2
      · subst he; exact TokOk_of_kind (by decide) (by decide)
      · exact lexRun_ok_tokens fuel (numRest rest false) line _ ts2 hrec t ht2
    · cases rest with
      | nil => simp at h
      | cons d rest2 =>
        simp only at h
        rw [except_map_eq_ok] at h
        obtain ⟨ts2, hrec, hcons⟩ := h
        subst hcons
        intro t ht
        rcases List.mem_cons.mp ht with he | ht2
        · subst he; exact TokOk_of_kind (by decide) (by decide)
        · exact lexRun_ok_tokens fuel rest2 line (col + 2) ts2 hrec t ht2
    · cases hs : symKind c with
      | none => rw [hs] at h; simp at h
      | some k =>
        rw [hs] at h
        simp only at h
        rw [except_map_eq_ok] at h
        obtain ⟨ts2, hrec, hcons⟩ := h
        subst hcons
        intro t ht
        rcases List.mem_cons.mp ht with he | ht2
        · subst he
          exact ⟨(symKind_spec hs).1, fun hk => absurd hk (symKind_spec hs).2⟩
        · exact lexRun_ok_tokens fuel rest line (col + 1) ts2 hrec t ht2

/-- Every token produced by `lex` is well-formed. -/
theorem lex_tokens_ok {s : String} {ts : List Token} (h : lex s = .ok ts) :
    ∀ t ∈ ts, TokOk t :=
  lexRun_ok_tokens (s.data.length + 1) s.data 1 1 ts h

theorem lineAfter_no_newline {m : List Char} (h : '\n' ∉ m) (line : Nat) :
    lineAfter line m = line := by
  simp [lineAfter, List.count_eq_zero.mpr h]

theorem colAfter_no_newline {m : List Char} (h : '\n' ∉ m) (col : Nat) :
    colAfter col m = col + m.length := by
  rw [colAfter, if_neg h]

theorem chunk_compose {line col line2 col2 el ec : Nat} {m p : List Char}
    (hm1 : lineAfter line m = line2) (hm2 : colAfter col m = col2)
    (hl : el = lineAfter line2 p) (hc : ec = colAfter col2 p) :
    el = lineAfter line (m ++ p) ∧ ec = colAfter col (m ++ p) := by
  subst hm1
  subst hm2
  constructor
  · rw [← lineAfter_append]; exact hl
  · rw [← colAfter_append]; exact hc

theorem no_newline_cons {c : Char} {l : List Char} (hc : c ≠ '\n') (hl : '\n' ∉ l) :
    '\n' ∉ c :: l := by
  intro hm
  rcases List.mem_cons.mp hm with he | he
  · exact hc he.symm
  · exact hl he

theorem ident_start_ne_newline {c : Char} (h : isIdentStart c = true) : c ≠ '\n' := by
  intro he
  subst he
  exact absurd h (by decide)

theorem ident_char_ne_newline {c : Char} (h : isIdentChar c = true) : c ≠ '\n' := by
  intro he
  subst he
  exact absurd h (by decide)

theorem digit_ne_newline {c : Char} (h : c.isDigit = true) : c ≠ '\n' := by
  intro he
  subst he
  exact absurd h (by decide)

theorem newline_not_mem_takeWhile_ident (rest : List Char) :
    '\n' ∉ rest.takeWhile isIdentChar :=
  fun hm => ident_char_ne_newline (List.mem_takeWhile_imp hm) rfl

theorem newline_not_mem_takeWhile_ne (rest : List Char) :
    '\n' ∉ rest.takeWhile notNL := by
  intro hm
  simpa [notNL] using List.mem_takeWhile_imp hm

theorem multi_op_ne_newline {c d : Char} (h : String.mk [c, d] ∈ MULTI_CHAR_OPS) :
    d ≠ '\n' := by
  intro he
  subst he
  simp only [MULTI_CHAR_OPS, RELATIONALS, List.mem_append, List.mem_cons,
             List.not_mem_nil, or_false] at h
  rcases h with (h|h|h|h|h|h) | (h|h|h|h|h|h|h|h|h) <;>
    · have h2 := congrArg String.data h
      simp at h2

/-- When the scanning loop fails with `unknownKeyword`, the offending
identifier is an all-upper non-keyword and the reported position is the
line/column of its first character. -/
theorem lexRun_unknownKeyword_spec :
    ∀ (fuel : Nat) (cs : List Char) (line col : Nat) (id : String) (el ec : Nat),
      lexRun fuel cs line col = .error (.unknownKeyword id el ec) →
      pyIsUpper id = true ∧ KEYWORDS_MAP.lookup id = none ∧
      ∃ p q, cs = p ++ id.data ++ q ∧ el = lineAfter line p ∧ ec = colAfter col p
  | 0, _, _, _, _, _, _, h => by simp [lexRun] at h
  | _ + 1, [], _, _, _, _, _, h => by simp [lexRun] at h
  | fuel + 1, c :: rest, line, col, id, el, ec, h => by
    simp only [lexRun] at h
    split_ifs at h with h1 h2 h3 h4 h5 h6 hup h7 hop
    · rw [except_map_eq_error] at h
      obtain ⟨hA, hB, p, q, hcs, hl, hc⟩ :=
        lexRun_unknownKeyword_spec fuel rest (line + 1) 1 id el ec h
      have hm1 : lineAfter line [c] = line + 1 := by
        subst h1; simp [lineAfter]
      have hm2 : colAfter col [c] = 1 := by
        rw [colAfter_single, if_pos h1]
      obtain ⟨hl2, hc2⟩ := chunk_compose hm1 hm2 hl hc
      exact ⟨hA, hB, [c] ++ p, q, by simp [hcs], hl2, hc2⟩
    · have hnn : '\n' ∉ [c] := no_newline_cons h1 (by simp)
      obtain ⟨hA, hB, p, q, hcs, hl, hc⟩ :=
        lexRun_unknownKeyword_spec fuel rest line (col + 1) id el ec h
      obtain ⟨hl2, hc2⟩ := chunk_compose (lineAfter_no_newline hnn line)
        (colAfter_no_newline hnn col) hl hc
      exact ⟨hA, hB, [c] ++ p, q, by simp [hcs], hl2, hc2⟩
    · have hnn : '\n' ∉ c :: rest.takeWhile notNL :=
        no_newline_cons h1 (newline_not_mem_takeWhile_ne rest)
      obtain ⟨hA, hB, p, q, hcs, hl, hc⟩ :=
        lexRun_unknownKeyword_spec fuel (rest.dropWhile notNL) line
          (col + 1 + (rest.takeWhile notNL).length) id el ec h
      have hm2 : colAfter col (c :: rest.takeWhile notNL) =
          col + 1 + (rest.takeWhile notNL).length := by
        rw [colAfter_no_newline hnn col, List.length_cons]
        omega
      obtain ⟨hl2, hc2⟩ := chunk_compose (lineAfter_no_newline hnn line) hm2 hl hc
      refine ⟨hA, hB, (c :: rest.takeWhile notNL) ++ p, q, ?_, hl2, hc2⟩
      conv_lhs => rw [← List.takeWhile_append_dropWhile notNL rest]
      simp [hcs]
    · cases hm : scanBlockComment rest.tail line (col + 2) with
      | none => rw [hm] at h; simp at h
      | some r =>
        obtain ⟨rem, l2, c2⟩ := r
        rw [hm] at h
        simp only at h
        obtain ⟨mB, hmB, hth1, hth2⟩ := scanBlockComment_spec rest.tail line (col + 2) rem l2 c2 hm
        obtain ⟨hA, hB, p, q, hcs, hl, hc⟩ :=
          lexRun_unknownKeyword_spec fuel rem l2 c2 id el ec h
        obtain ⟨hstar, hhead⟩ := h4
        have hrest : rest = '*' :: rest.tail := by
          cases rest with
          | nil => simp at hhead
          | cons d ds => simp at hhead; simp [hhead]
        have hm1 : lineAfter line (c :: '*' :: mB) = l2 := by
          rw [lineAfter_cons, if_neg h1, lineAfter_cons, if_neg (by decide), ← hth1]
        have hm2 : colAfter col (c :: '*' :: mB) = c2 := by
          rw [colAfter_cons, if_neg h1, colAfter_cons, if_neg (by decide), ← hth2]
        obtain ⟨hl2, hc2⟩ := chunk_compose hm1 hm2 hl hc
        refine ⟨hA, hB, (c :: '*' :: mB) ++ p, q, ?_, hl2, hc2⟩
        conv_lhs => rw [hrest, hmB]
        simp [hcs]
    · cases hm : scanString rest false line (col + 1) with
      | none => rw [hm] at h; simp at h
      | some r =>
        obtain ⟨buf, rem, l2, c2⟩ := r
        rw [hm] at h
        simp only at h
        rw [except_map_eq_error] at h
        obtain ⟨hbr, hsl, hsc, -⟩ := scanString_spec rest false line (col + 1) buf rem l2 c2 hm
        obtain ⟨hA, hB, p, q, hcs, hl, hc⟩ :=
          lexRun_unknownKeyword_spec fuel rem l2 c2 id el ec h
        have hm1 : lineAfter line (c :: buf) = l2 := by
          rw [lineAfter_cons, if_neg h1, ← hsl]
        have hm2 : colAfter col (c :: buf) = c2 := by
          rw [colAfter_cons, if_neg h1, ← hsc]
        obtain ⟨hl2, hc2⟩ := chunk_compose hm1 hm2 hl hc
        refine ⟨hA, hB, (c :: buf) ++ p, q, ?_, hl2, hc2⟩
        rw [hbr, hcs]
        simp
    · simp only [Except.error.injEq, LexErr.unknownKeyword.injEq] at h
      obtain ⟨hid, hel, hec⟩ := h
      subst hid
      subst hel
      subst hec
      refine ⟨hup.1, Option.isNone_iff_eq_none.mp hup.2, [], rest.dropWhile isIdentChar, ?_,
              (lineAfter_nil line).symm, (colAfter_nil col).symm⟩
      show c :: rest = [] ++ (c :: rest.takeWhile isIdentChar) ++ rest.dropWhile isIdentChar
      simp [List.takeWhile_append_dropWhile]
    · have hnn : '\n' ∉ c :: rest.takeWhile isIdentChar :=
        no_newline_cons (ident_start_ne_newline h6) (newline_not_mem_takeWhile_ident rest)
      rw [except_map_eq_error] at h
      obtain ⟨hA, hB, p, q, hcs, hl, hc⟩ :=
        lexRun_unknownKeyword_spec fuel (rest.dropWhile isIdentChar) line
          (col + 1 + (rest.takeWhile isIdentChar).length) id el ec h
      have hm2 : colAfter col (c :: rest.takeWhile isIdentChar) =
          col + 1 + (rest.takeWhile isIdentChar).length := by
        rw [colAfter_no_newline hnn col, List.length_cons]
        omega
      obtain ⟨hl2, hc2⟩ := chunk_compose (lineAfter_no_newline hnn line) hm2 hl hc
      refine ⟨hA, hB, (c :: rest.takeWhile isIdentChar) ++ p, q, ?_, hl2, hc2⟩
      conv_lhs => rw [← List.takeWhile_append_dropWhile isIdentChar rest]
      simp [hcs]
    · have hnn : '\n' ∉ c :: numTail rest false :=
        no_newline_cons (digit_ne_newline h7) (newline_not_mem_numTail rest false)
      rw [except_map_eq_error] at h
      obtain ⟨hA, hB, p, q, hcs, hl, hc⟩ :=
        lexRun_unknownKeyword_spec fuel (numRest rest false) line
          (col + 1 + (numTail rest false).length) id el ec h
      have hm2 : colAfter col (c :: numTail rest false) =
          col + 1 + (numTail rest false).length := by
        rw [colAfter_no_newline hnn col, List.length_cons]
        omega
      obtain ⟨hl2, hc2⟩ := chunk_compose (lineAfter_no_newline hnn line) hm2 hl hc
      refine ⟨hA, hB, (c :: numTail rest false) ++ p, q, ?_, hl2, hc2⟩
      conv_lhs => rw [← numTail_append_numRest rest false]
      simp [hcs]
    · cases rest with
      | nil => simp at h
      | cons d rest2 =>
        simp only at h
        rw [except_map_eq_error] at h
        have hop2 : String.mk [c, d] ∈ MULTI_CHAR_OPS := by
          simpa using hop
        have hnn : '\n' ∉ [c, d] :=
          no_newline_cons h1 (no_newline_cons (multi_op_ne_newline hop2) (by simp))
        obtain ⟨hA, hB, p, q, hcs, hl, hc⟩ :=
          lexRun_unknownKeyword_spec fuel rest2 line (col + 2) id el ec h
        obtain ⟨hl2, hc2⟩ := chunk_compose (lineAfter_no_newline hnn line)
          (colAfter_no_newline hnn col) hl hc
        exact ⟨hA, hB, [c, d] ++ p, q, by simp [hcs], hl2, hc2⟩
    · cases hs : symKind c with
      | none => rw [hs] at h; simp at h
      | some k =>
        rw [hs] at h
        simp only at h
        rw [except_map_eq_error] at h
        have hnn : '\n' ∉ [c] := no_newline_cons h1 (by simp)
        obtain ⟨hA, hB, p, q, hcs, hl, hc⟩ :=
          lexRun_unknownKeyword_spec fuel rest line (col + 1) id el ec h
        obtain ⟨hl2, hc2⟩ := chunk_compose (lineAfter_no_newline hnn line)
          (colAfter_no_newline hnn col) hl hc
        exact ⟨hA, hB, [c] ++ p, q, by simp [hcs], hl2, hc2⟩

/-! ### Emitter lemmas -/

theorem indentIfNeeded_indent (e : Emitter) : e.indentIfNeeded.indent = e.indent := by
  unfold Emitter.indentIfNeeded
  split <;> rfl

theorem indentIfNeeded_lines (e : Emitter) : e.indentIfNeeded.lines = e.lines := by
  unfold Emitter.indentIfNeeded
  split <;> rfl

theorem emitText_indent (e : Emitter) (t : String) : (e.emitText t).indent = e.indent := by
  unfold Emitter.emitText
  simp [indentIfNeeded_indent]

theorem emitText_lines (e : Emitter) (t : String) : (e.emitText t).lines = e.lines := by
  unfold Emitter.emitText
  simp [indentIfNeeded_lines]

theorem emitSpace_indent (e : Emitter) : e.emitSpace.indent = e.indent := by
  unfold Emitter.emitSpace
  split
  · rw [indentIfNeeded_indent]
  · simp [indentIfNeeded_indent]

theorem emitSpace_lines (e : Emitter) : e.emitSpace.lines = e.lines := by
  unfold Emitter.emitSpace
  split
  · rw [indentIfNeeded_lines]
  · simp [indentIfNeeded_lines]

theorem newline_indent (e : Emitter) : e.newline.indent = e.indent := rfl

theorem newline_lines (e : Emitter) : e.newline.lines = e.lines ++ [pyRstrip e.current] := rfl

theorem openBlock_indent (e : Emitter) : e.openBlock.indent = e.indent + 1 := rfl

theorem openBlock_lines (e : Emitter) : e.openBlock.lines = e.lines := rfl

theorem closeBlock_ok_indent {e e2 : Emitter} (h : e.closeBlock = .ok e2) :
    e2.indent + 1 = e.indent := by
  unfold Emitter.closeBlock at h
  split_ifs at h with h0 h1 <;>
    (simp only [Except.ok.injEq] at h
     subst h
     simp [Emitter.newline]
     omega)

theorem closeBlock_err {e : Emitter} {err : ParseErr} (h : e.closeBlock = .error err) :
    err = .unmatchedClose ∧ e.indent = 0 := by
  unfold Emitter.closeBlock at h
  split_ifs at h with h0 h1 <;> simp_all

theorem closeBlock_ok_lines {e e2 : Emitter} (h : e.closeBlock = .ok e2) :
    e2.lines = e.lines ∨ e2.lines = e.lines ++ [pyRstrip e.current] := by
  unfold Emitter.closeBlock at h
  split_ifs at h with h0 h1
  · simp only [Except.ok.injEq] at h
    subst h
    right
    simp [Emitter.newline]
  · simp only [Except.ok.injEq] at h
    subst h
    left
    rfl

theorem emitMappedIdent_indent (st : TState) (v : String) :
    (emitMappedIdent st v).emit.indent = st.emit.indent := by
  unfold emitMappedIdent
  cases KEYWORDS_MAP.lookup v <;> simp only
  · rw [emitText_indent]
  · split <;> simp [emitSpace_indent, emitText_indent]

theorem emitMappedIdent_lines (st : TState) (v : String) :
    (emitMappedIdent st v).emit.lines = st.emit.lines := by
  unfold emitMappedIdent
  cases KEYWORDS_MAP.lookup v <;> simp only
  · rw [emitText_lines]
  · split <;> simp [emitSpace_lines, emitText_lines]

/-! ### Translation-loop lemmas -/

theorem countKind_nil (k : String) : countKind k [] = 0 := rfl

theorem countKind_cons (k : String) (t : Token) (ts : List Token) :
    countKind k (t :: ts) = (if t.kind = k then 1 else 0) + countKind k ts := by
  by_cases hk : t.kind = k
  · simp [countKind, List.filter_cons, hk, Nat.add_comm]
  · simp [countKind, List.filter_cons, hk]

theorem runFrom_nil (st : TState) : runFrom st [] = .ok st := rfl

theorem runFrom_cons_ok {st s2 : TState} {t : Token} (ts : List Token)
    (h : translateStep st t = .ok s2) :
    runFrom st (t :: ts) = runFrom s2 ts := by
  simp only [runFrom, List.foldlM_cons, h]
  rfl

theorem runFrom_cons_err {st : TState} {t : Token} {e : ParseErr} (ts : List Token)
    (h : translateStep st t = .error e) :
    runFrom st (t :: ts) = .error e := by
  simp only [runFrom, List.foldlM_cons, h]
  rfl

theorem translateStep_ok_indent {st st2 : TState} {t : Token}
    (h : translateStep st t = .ok st2) :
    st2.emit.indent + countKind "RBRACE" [t] = st.emit.indent + countKind "LBRACE" [t] := by
  have hc : ∀ k : String, countKind k [t] = if t.kind = k then 1 else 0 := by
    intro k
    rw [countKind_cons, countKind_nil]
    omega
  rw [hc, hc]
  unfold translateStep at h
  split_ifs at h with k1 k2 kph k3 k4 k5 k5b k6 k7
  · simp only [Except.ok.injEq] at h
    subst h
    rcases k1 with hk | hk <;> simp [hk, newline_indent]
  · simp only [Except.ok.injEq] at h
    subst h
    simp [k2, openBlock_indent, newline_indent, emitText_indent]
  · simp only [Except.ok.injEq] at h
    subst h
    simp [k2, openBlock_indent, newline_indent]
  · rw [except_map_eq_ok] at h
    obtain ⟨e2, hcb, heq⟩ := h
    subst heq
    have := closeBlock_ok_indent hcb
    simp [k3]
    omega
  · simp only [Except.ok.injEq] at h
    subst h
    rcases k4 with hk | hk <;> simp [hk, emitText_indent]
  · simp only [Except.ok.injEq] at h
    subst h
    simp [k5, emitMappedIdent_indent]
  · simp only [Except.ok.injEq] at h
    subst h
    simp [k5, emitMappedIdent_indent]
  · simp only [Except.ok.injEq] at h
    subst h
    simp [k6, emitText_indent]
  · simp only [Except.ok.injEq] at h
    subst h
    rcases k7 with hk | hk | hk | hk | hk | hk <;> simp [hk, emitText_indent]

theorem runFrom_ok_indent :
    ∀ (ts : List Token) (st st2 : TState), runFrom st ts = .ok st2 →
      st2.emit.indent + countKind "RBRACE" ts = st.emit.indent + countKind "LBRACE" ts
  | [], st, st2, h => by
    rw [runFrom_nil] at h
    simp only [Except.ok.injEq] at h
    subst h
    simp [countKind_nil]
  | t :: ts, st, st2, h => by
    cases hstep : translateStep st t with
    | error e =>
      rw [runFrom_cons_err ts hstep] at h
      cases h
    | ok s2 =>
      rw [runFrom_cons_ok ts hstep] at h
      have h1 := runFrom_ok_indent ts s2 st2 h
      have h2 := translateStep_ok_indent hstep
      have hc : ∀ k : String, countKind k [t] = if t.kind = k then 1 else 0 := by
        intro k
        rw [countKind_cons, countKind_nil]
        omega
      rw [hc, hc] at h2
      rw [countKind_cons "RBRACE" t ts, countKind_cons "LBRACE" t ts]
      omega

theorem runFrom_ok_of_append :
    ∀ (l1 l2 : List Token) (st st2 : TState), runFrom st (l1 ++ l2) = .ok st2 →
      ∃ s1, runFrom st l1 = .ok s1 ∧ runFrom s1 l2 = .ok st2
  | [], _, st, _, h => ⟨st, rfl, h⟩
  | t :: l1, l2, st, st2, h => by
    cases hstep : translateStep st t with
    | error e =>
      rw [List.cons_append, runFrom_cons_err (l1 ++ l2) hstep] at h
      cases h
    | ok s2 =>
      rw [List.cons_append, runFrom_cons_ok (l1 ++ l2) hstep] at h
      obtain ⟨s1, ha, hb⟩ := runFrom_ok_of_append l1 l2 s2 st2 h
      exact ⟨s1, by rw [runFrom_cons_ok l1 hstep]; exact ha, hb⟩

theorem translateStep_error_shape {st : TState} {t : Token} {e : ParseErr}
    (h : translateStep st t = .error e) :
    e = .unmatchedClose ∨
      (e = .unexpected t.kind t.value t.line t.col ∧ t.kind ∉ knownKinds) := by
  unfold translateStep at h
  split_ifs at h with k1 k2 kph k3 k4 k5 k5b k6 k7
  all_goals first
    | (rw [except_map_eq_error] at h
       exact Or.inl (closeBlock_err h).1)
    | (simp only [Except.error.injEq] at h
       subst h
       refine Or.inr ⟨rfl, ?_⟩
       intro hmem
       simp only [knownKinds, List.mem_cons, List.not_mem_nil, or_false] at hmem
       rcases hmem with hst|hst|hst|hst|hst|hst|hst|hst|hst|hst|hst|hst|hst|hst <;> simp_all)

theorem runFrom_error_ne_unclosed :
    ∀ (ts : List Token) (st : TState) (e : ParseErr), runFrom st ts = .error e →
      e ≠ .unclosed
  | [], st, e, h => by rw [runFrom_nil] at h; cases h
  | t :: ts, st, e, h => by
    cases hstep : translateStep st t with
    | error e2 =>
      rw [runFrom_cons_err ts hstep] at h
      simp only [Except.error.injEq] at h
      subst h
      rcases translateStep_error_shape hstep with he | ⟨he, -⟩ <;> simp [he]
    | ok s2 =>
      rw [runFrom_cons_ok ts hstep] at h
      exact runFrom_error_ne_unclosed ts s2 e h

theorem runFrom_error_known :
    ∀ (ts : List Token) (st : TState) (e : ParseErr), (∀ t ∈ ts, t.kind ∈ knownKinds) →
      runFrom st ts = .error e → e = .unmatchedClose
  | [], st, e, _, h => by rw [runFrom_nil] at h; cases h
  | t :: ts, st, e, hk, h => by
    cases hstep : translateStep st t with
    | error e2 =>
      rw [runFrom_cons_err ts hstep] at h
      simp only [Except.error.injEq] at h
      subst h
      rcases translateStep_error_shape hstep with he | ⟨-, hnk⟩
      · exact he
      · exact absurd (hk t (List.mem_cons_self t ts)) hnk
    | ok s2 =>
      rw [runFrom_cons_ok ts hstep] at h
      exact runFrom_error_known ts s2 e (fun u hu => hk u (List.mem_cons_of_mem t hu)) h

theorem translate_eq_ok_iff (ts : List Token) (s : String) :
    translate ts = .ok s ↔
      ∃ st, runTranslate ts = .ok st ∧ st.emit.indent = 0 ∧ s = st.emit.getOutput := by
  unfold translate
  cases h : runTranslate ts with
  | error e => simp
  | ok st =>
    simp only
    split_ifs with hi
    · constructor
      · intro hcon; cases hcon
      · rintro ⟨st2, he, hz, -⟩
        injection he with he2
        subst he2
        exact absurd hz hi
    · constructor
      · intro hok
        simp only [Except.ok.injEq] at hok
        exact ⟨st, rfl, by omega, hok.symm⟩
      · rintro ⟨st2, he, hz, hs⟩
        injection he with he2
        subst he2
        rw [hs]

/-! ### Right-strip invariant and output shape -/

theorem pyRstrip_idem (s : String) : pyRstrip (pyRstrip s) = pyRstrip s := by
  simp [pyRstrip, dropWhile_idem]

theorem getLast?_some_ne_nil {α : Type} {l : List α} {x : α} (h : l.getLast? = some x) :
    l ≠ [] := by
  intro hd
  subst hd
  simp at h

theorem pyRstrip_fix_last {s : String} (hfix : pyRstrip s = s) (hne : s ≠ "") :
    ∃ ch, s.data.getLast? = some ch ∧ isPySpace ch = false := by
  have hdata : s.data ≠ [] := by
    intro hd
    apply hne
    cases s with
    | mk d => simp only at hd; subst hd; rfl
  have hfix2 : s.data.reverse = s.data.reverse.dropWhile isPySpace := by
    have hd := congrArg String.data hfix
    simp only [pyRstrip] at hd
    conv_lhs => rw [← hd]
    simp
  cases hrev : s.data.reverse with
  | nil =>
    exact absurd (by simpa using congrArg List.reverse hrev) hdata
  | cons b m =>
    refine ⟨b, ?_, ?_⟩
    · rw [← List.head?_reverse, hrev]
      rfl
    · exact dropWhile_head_false (hfix2.symm.trans hrev)

theorem rstripped_newline {e : Emitter} (hr : RstrippedLines e) :
    RstrippedLines e.newline := by
  intro l hl
  rw [newline_lines] at hl
  rcases List.mem_append.mp hl with hm | hm
  · exact hr l hm
  · simp only [List.mem_singleton] at hm
    subst hm
    exact pyRstrip_idem _

theorem rstripped_of_lines_eq {e e2 : Emitter} (he : e2.lines = e.lines)
    (hr : RstrippedLines e) : RstrippedLines e2 :=
  fun l hl => hr l (he ▸ hl)

theorem translateStep_rstripped {st st2 : TState} {t : Token}
    (h : translateStep st t = .ok st2) (hr : RstrippedLines st.emit) :
    RstrippedLines st2.emit := by
  unfold translateStep at h
  split_ifs at h with k1 k2 kph k3 k4 k5 k5b k6 k7
  all_goals try (simp only [Except.ok.injEq] at h; subst h)
  · exact rstripped_newline hr
  · exact rstripped_of_lines_eq (openBlock_lines _)
      (rstripped_newline (rstripped_of_lines_eq (emitText_lines _ _) hr))
  · exact rstripped_of_lines_eq (openBlock_lines _) (rstripped_newline hr)
  · rw [except_map_eq_ok] at h
    obtain ⟨e2, hcb, heq⟩ := h
    subst heq
    rcases closeBlock_ok_lines hcb with hsame | happ
    · exact rstripped_of_lines_eq hsame hr
    · intro l hl
      simp only at hl
      rw [happ] at hl
      rcases List.mem_append.mp hl with hm | hm
      · exact hr l hm
      · simp only [List.mem_singleton] at hm
        subst hm
        exact pyRstrip_idem _
  · exact rstripped_of_lines_eq (emitText_lines _ _) hr
  · exact rstripped_of_lines_eq (emitMappedIdent_lines st _) hr
  · exact rstripped_of_lines_eq (emitMappedIdent_lines st _) hr
  · exact rstripped_of_lines_eq (emitText_lines _ _) hr
  · exact rstripped_of_lines_eq (emitText_lines _ _) hr

theorem runFrom_rstripped :
    ∀ (ts : List Token) (st st2 : TState), runFrom st ts = .ok st2 →
      RstrippedLines st.emit → RstrippedLines st2.emit
  | [], st, st2, h, hr => by
    rw [runFrom_nil] at h
    simp only [Except.ok.injEq] at h
    subst h
    exact hr
  | t :: ts, st, st2, h, hr => by
    cases hstep : translateStep st t with
    | error e =>
      rw [runFrom_cons_err ts hstep] at h
      cases h
    | ok s2 =>
      rw [runFrom_cons_ok ts hstep] at h
      exact runFrom_rstripped ts s2 st2 h (translateStep_rstripped hstep hr)

theorem joinLines_concat_last :
    ∀ (L : List String) (b : String), b.data ≠ [] →
      (joinLines (L ++ [b])).data.getLast? = b.data.getLast?
  | [], b, _ => by simp [joinLines]
  | a :: L, b, h => by
    have hJ := joinLines_concat_last L b h
    obtain ⟨ch, hch⟩ : ∃ ch, b.data.getLast? = some ch := by
      cases hb : b.data.getLast? with
      | none => exact absurd (List.getLast?_eq_none_iff.mp hb) h
      | some ch => exact ⟨ch, rfl⟩
    cases hL : L ++ [b] with
    | nil => simp at hL
    | cons x tl =>
      rw [List.cons_append, hL]
      show ((a ++ "\n") ++ joinLines (x :: tl)).data.getLast? = b.data.getLast?
      rw [String.data_append]
      rw [List.getLast?_append_of_ne_nil]
      · rw [← hL, hJ]
      · rw [← hL]
        exact getLast?_some_ne_nil (hJ.trans hch)

theorem getOutput_shape {e : Emitter}
    (hr : RstrippedLines (if e.current = "" then e else e.newline)) :
    (e.getOutput).data.getLast? = some '\n' ∧
      ¬ (e.getOutput).data.dropLast.getLast? = some '\n' := by
  unfold Emitter.getOutput
  cases hm : (if e.current = "" then e else e.newline).lines.reverse.dropWhile
      (fun l => l = "") with
  | nil =>
    constructor
    · rfl
    · simp [joinLines]
  | cons b mrest =>
    have hbne : ¬ b = "" := by simpa using dropWhile_head_false hm
    have hbmem : b ∈ (if e.current = "" then e else e.newline).lines := by
      have h1 : b ∈ (if e.current = "" then e else e.newline).lines.reverse :=
        (List.dropWhile_sublist _).subset (hm ▸ List.mem_cons_self b mrest)
      exact List.mem_reverse.mp h1
    obtain ⟨ch, hch, hsp⟩ := pyRstrip_fix_last (hr b hbmem) hbne
    have hbd : b.data ≠ [] := getLast?_some_ne_nil hch
    have hchn : ch ≠ '\n' := by
      intro hh
      subst hh
      simp [isPySpace] at hsp
    rw [List.reverse_cons]
    have hj := joinLines_concat_last mrest.reverse b hbd
    constructor
    · rw [String.data_append]
      exact List.getLast?_concat _
    · rw [String.data_append]
      have hdrop :
          ((joinLines (mrest.reverse ++ [b])).data ++ ("\n" : String).data).dropLast =
            (joinLines (mrest.reverse ++ [b])).data := List.dropLast_concat
      rw [hdrop, hj, hch]
      intro hcon
      exact hchn (by injection hcon)

theorem translate_output_newline {ts : List Token} {s : String}
    (h : translate ts = .ok s) :
    s.data.getLast? = some '\n' ∧ ¬ s.data.dropLast.getLast? = some '\n' := by
  obtain ⟨st, hrun, hz, hs⟩ := (translate_eq_ok_iff ts s).mp h
  have hr0 : RstrippedLines TState.init.emit := by
    intro l hl
    simp [TState.init, Emitter.init] at hl
  have hr : RstrippedLines st.emit := runFrom_rstripped ts TState.init st hrun hr0
  have hr2 : RstrippedLines (if st.emit.current = "" then st.emit else st.emit.newline) := by
    split
    · exact hr
    · exact rstripped_newline hr
  subst hs
  exact getOutput_shape hr2

theorem scanString_eq_none_iff :
    ∀ (cs : List Char) (esc : Bool) (line col : Nat),
      scanString cs esc line col = none ↔ hasClose esc cs = false
  | [], esc, _, _ => by
    cases esc <;> simp [scanString, hasClose]
  | c :: cs, esc, line, col => by
    cases esc with
    | true =>
      simp only [scanString, hasClose, if_true]
      rw [Option.map_eq_none']
      exact scanString_eq_none_iff cs false _ _
    | false =>
      simp only [scanString, hasClose, Bool.false_eq_true, if_false]
      by_cases hbs : c = '\\'
      · simp only [hbs, if_true, if_pos]
        rw [Option.map_eq_none']
        exact scanString_eq_none_iff cs true _ _
      · rw [if_neg hbs, if_neg hbs]
        by_cases hq : c = '"'
        · simp [hq]
        · rw [if_neg hq, if_neg hq]
          rw [Option.map_eq_none']
          exact scanString_eq_none_iff cs false _ _

/-! ### The claims -/

/-- Claim C1, counterexample: on the spec's concrete input the transpiler
emits `def soma(a,b):` and `    return a+b` — the mandatory space appears
only after `def`/`return`, and no space is emitted around the comma or the
mapped `+`, so the claimed output `def soma(a, b):` / `return a + b` is not
produced. -/
theorem claim1_counterexample :
    compile "OPERACAO soma(a, b) \x7b RETORNAR_STATUS a INTENSIFICAR b \x7d" =
      .ok "def soma(a,b):\n    return a+b\n" ∧
    ("def soma(a,b):\n    return a+b\n" : String) ≠
      "def soma(a, b):\n    return a + b\n" :=
  ⟨rfl, by decide⟩

/-- Claim C1, amended: running lex then translate on the input
`OPERACAO soma(a, b) { RETORNAR_STATUS a INTENSIFICAR b }` produces exactly
the header line `def soma(a,b):` followed by the 4-space-indented body line
`return a+b` and the terminating newline; interior source spacing around
the comma and the operator is not reproduced. -/
theorem claim1_theorem :
    compile "OPERACAO soma(a, b) \x7b RETORNAR_STATUS a INTENSIFICAR b \x7d" =
      .ok "def soma(a,b):\n    return a+b\n" :=
  rfl

/-- Claim C2, counterexample: the token sequence of the source `OPERACAO`
emits the header keyword `def` and no `\x7b` ever follows, yet `translate`
succeeds (returning `def\n`) with `pendingHeader` still set at the end —
no `TranslationError` is raised. -/
theorem claim2_counterexample :
    lex "OPERACAO" = .ok [⟨"IDENT", "OPERACAO", 1, 1⟩, ⟨"NEWLINE", "\n", 1, 9⟩] ∧
    translate [⟨"IDENT", "OPERACAO", 1, 1⟩, ⟨"NEWLINE", "\n", 1, 9⟩] = .ok "def\n" ∧
    (runTranslate [⟨"IDENT", "OPERACAO", 1, 1⟩, ⟨"NEWLINE", "\n", 1, 9⟩]).map
      TState.pendingHeader = .ok true :=
  ⟨rfl, rfl, rfl⟩

/-- Claim C2, amended: `translate` succeeds exactly when the token loop
completes without error and the final indentation depth is zero; no
pending-header condition is checked, so a header keyword never followed by
`\x7b` does not by itself cause a `TranslationError`. -/
theorem claim2_amended (ts : List Token) :
    (∃ s, translate ts = .ok s) ↔
      ∃ st, runTranslate ts = .ok st ∧ st.emit.indent = 0 := by
  constructor
  · rintro ⟨s, hs⟩
    obtain ⟨st, h1, h2, -⟩ := (translate_eq_ok_iff ts s).mp hs
    exact ⟨st, h1, h2⟩
  · rintro ⟨st, h1, h2⟩
    exact ⟨st.emit.getOutput, (translate_eq_ok_iff ts _).mpr ⟨st, h1, h2, rfl⟩⟩

/-- Claim C3, counterexample: a `SENAO_OPERADOR` token processed while
`justClosedBlock` is false (here: as the very first token) still sets
`pendingHeader` — its mapped spelling `else` is in `HEADER_TOKENS`, so
`emit_mapped_ident` marks the header — and a later `\x7b` therefore does
receive the trailing colon: the output is `else:`. -/
theorem claim3_counterexample :
    (translateStep TState.init ⟨"IDENT", "SENAO_OPERADOR", 1, 1⟩).map
      TState.pendingHeader = .ok true ∧
    translate [⟨"IDENT", "SENAO_OPERADOR", 1, 1⟩, ⟨"LBRACE", "\x7b", 1, 16⟩,
               ⟨"RBRACE", "\x7d", 1, 18⟩, ⟨"NEWLINE", "\n", 1, 20⟩] = .ok "else:\n" :=
  ⟨rfl, rfl⟩

/-- Claim C3, amended: a `SENAO_OPERADOR` identifier token is translated
identically whether or not it immediately follows a closed block: in both
cases it is emitted via the keyword map as `else` and, since `else` is in
`HEADER_TOKENS`, `pendingHeader` is set (the `justClosedBlock` branch only
re-sets it redundantly), so a later `\x7b` receives a trailing colon either
way. -/
theorem claim3_amended (st : TState) (l c : Nat) :
    translateStep st ⟨"IDENT", "SENAO_OPERADOR", l, c⟩ =
      .ok { emitMappedIdent st "SENAO_OPERADOR" with
              pendingHeader := true, justClosed := false } := by
  rcases st with ⟨e0, p0, j0⟩
  cases j0 <;> rfl

/-- Claim C4: translate fails whenever a `\x7d` appears while the running
indentation depth is zero (some prefix holds more `RBRACE` than `LBRACE`
tokens), and whenever the whole sequence holds strictly more `LBRACE` than
`RBRACE` tokens; in neither case is any output returned. -/
theorem claim4 (ts : List Token)
    (h : (∃ k, countKind "LBRACE" (ts.take k) < countKind "RBRACE" (ts.take k)) ∨
         countKind "RBRACE" ts < countKind "LBRACE" ts) :
    ∃ e, translate ts = .error e := by
  cases htr : translate ts with
  | error e => exact ⟨e, rfl⟩
  | ok s =>
    exfalso
    obtain ⟨st, hrun, hz, -⟩ := (translate_eq_ok_iff ts s).mp htr
    have hrun2 : runFrom TState.init ts = .ok st := hrun
    rcases h with ⟨k, hk⟩ | hcount
    · rw [← List.take_append_drop k ts] at hrun2
      obtain ⟨s1, h1, -⟩ := runFrom_ok_of_append (ts.take k) (ts.drop k) TState.init st hrun2
      have hinv := runFrom_ok_indent (ts.take k) TState.init s1 h1
      simp only [TState.init, Emitter.init] at hinv
      omega
    · have hinv := runFrom_ok_indent ts TState.init st hrun2
      simp only [TState.init, Emitter.init] at hinv
      omega

/-- Witness for C4 at the single-token sequence `\x7d`. -/
theorem claim4_witness :
    ∃ e, translate [⟨"RBRACE", "\x7d", 1, 1⟩] = .error e :=
  claim4 [⟨"RBRACE", "\x7d", 1, 1⟩] (Or.inl ⟨1, by decide⟩)

/-- Claim C5: on a token sequence whose braces are matched (no prefix has
more `RBRACE` than `LBRACE`, and the totals agree), a completed run ends at
indentation depth exactly zero, and the unclosed-block error is not
raised. -/
theorem claim5 (ts : List Token)
    (hpre : ∀ k, countKind "RBRACE" (ts.take k) ≤ countKind "LBRACE" (ts.take k))
    (heq : countKind "LBRACE" ts = countKind "RBRACE" ts) :
    (∀ st, runTranslate ts = .ok st → st.emit.indent = 0) ∧
    translate ts ≠ .error .unclosed := by
  constructor
  · intro st hrun
    have hinv := runFrom_ok_indent ts TState.init st hrun
    simp only [TState.init, Emitter.init] at hinv
    omega
  · intro hbad
    cases hrun : runTranslate ts with
    | error e =>
      have htr : translate ts = .error e := by
        unfold translate
        rw [hrun]
      rw [htr] at hbad
      injection hbad with hbad2
      exact runFrom_error_ne_unclosed ts TState.init e hrun hbad2
    | ok st =>
      have hz : st.emit.indent = 0 := by
        have hinv := runFrom_ok_indent ts TState.init st hrun
        simp only [TState.init, Emitter.init] at hinv
        omega
      have htr : translate ts = .ok st.emit.getOutput :=
        (translate_eq_ok_iff _ _).mpr ⟨st, hrun, hz, rfl⟩
      rw [htr] at hbad
      cases hbad

/-- Witness for C5 at the matched sequence `\x7b \x7d`. -/
theorem claim5_witness :
    (∀ st, runTranslate [⟨"LBRACE", "\x7b", 1, 1⟩, ⟨"RBRACE", "\x7d", 1, 3⟩] = .ok st →
      st.emit.indent = 0) ∧
    translate [⟨"LBRACE", "\x7b", 1, 1⟩, ⟨"RBRACE", "\x7d", 1, 3⟩] ≠ .error .unclosed :=
  claim5 _
    (fun k => by
      match k with
      | 0 => decide
      | 1 => decide
      | n + 2 =>
        rw [List.take_of_length_le (by simp)]
        decide)
    (by decide)

/-- Claim C6: the lexer never emits an identifier token that is all-upper
and absent from the keyword table (it raises `LexerError` instead), and
when it raises `unknownKeyword` the offending identifier is all-upper, not
in the table, and the carried 1-based line/column are those of the
identifier's first character in the source. -/
theorem claim6 (s : String) :
    (∀ ts, lex s = .ok ts → ∀ t ∈ ts, t.kind = "IDENT" → pyIsUpper t.value = true →
      (KEYWORDS_MAP.lookup t.value).isSome) ∧
    (∀ id el ec, lex s = .error (.unknownKeyword id el ec) →
      pyIsUpper id = true ∧ KEYWORDS_MAP.lookup id = none ∧
      ∃ p q, s.data = p ++ id.data ++ q ∧ el = lineAfter 1 p ∧ ec = colAfter 1 p) := by
  constructor
  · intro ts hts t ht hk hup
    exact (lex_tokens_ok hts t ht).2 hk hup
  · intro id el ec he
    exact lexRun_unknownKeyword_spec _ _ 1 1 id el ec he

/-- Witness for C6 at the source `FOO` (and, for the ok direction, `foo`). -/
theorem claim6_witness :
    (pyIsUpper "FOO" = true ∧ KEYWORDS_MAP.lookup "FOO" = none ∧
      ∃ p q, ("FOO" : String).data = p ++ ("FOO" : String).data ++ q ∧
        1 = lineAfter 1 p ∧ 1 = colAfter 1 p) ∧
    (∀ t ∈ [Token.mk "IDENT" "foo" 1 1, Token.mk "NEWLINE" "\n" 1 4],
      t.kind = "IDENT" → pyIsUpper t.value = true → (KEYWORDS_MAP.lookup t.value).isSome) :=
  ⟨(claim6 "FOO").2 "FOO" 1 1 rfl, (claim6 "foo").1 _ rfl⟩

/-- Claim C7: a successful translation's output ends with exactly one
trailing newline: its last character is a newline and the character before
it (when present) is not, the trailing fully-blank lines having been
stripped before joining. -/
theorem claim7 (ts : List Token) (s : String) (h : translate ts = .ok s) :
    s.data.getLast? = some '\n' ∧ ¬ s.data.dropLast.getLast? = some '\n' :=
  translate_output_newline h

/-- Witness for C7 at the empty token sequence, whose output is `"\n"`. -/
theorem claim7_witness :
    ("\n" : String).data.getLast? = some '\n' ∧
      ¬ ("\n" : String).data.dropLast.getLast? = some '\n' :=
  claim7 [] "\n" rfl

/-- Claim C8: lexing the six-character source `"a\"b"` yields exactly one
STRING token (plus the appended end-of-input NEWLINE) whose value is the
lexeme byte-for-byte, the backslash escape copied verbatim; translating
those tokens emits the lexeme verbatim followed by the terminating
newline. -/
theorem claim8 :
    lex "\"a\\\"b\"" = .ok [⟨"STRING", "\"a\\\"b\"", 1, 1⟩, ⟨"NEWLINE", "\n", 1, 7⟩] ∧
    translate [⟨"STRING", "\"a\\\"b\"", 1, 1⟩, ⟨"NEWLINE", "\n", 1, 7⟩] =
      .ok "\"a\\\"b\"\n" :=
  ⟨rfl, rfl⟩

/-- Claim C9: the string scanner fails (unterminated string) exactly when
no unescaped closing quote occurs before end of input — a raw newline does
not terminate scanning; when it succeeds the lexeme is exactly the
consumed chunk, spanning any newlines; concretely, lexing `"a<newline>b"`
yields a single STRING token whose lexeme spans the newline, with the
following position on line 2. -/
theorem claim9 :
    (∀ (cs : List Char) (esc : Bool) (line col : Nat),
      scanString cs esc line col = none ↔ hasClose esc cs = false) ∧
    (∀ (cs : List Char) (esc : Bool) (line col : Nat) buf rest l2 c2,
      scanString cs esc line col = some (buf, rest, l2, c2) → cs = buf ++ rest) ∧
    lex "\"a\nb\"" = .ok [⟨"STRING", "\"a\nb\"", 1, 1⟩, ⟨"NEWLINE", "\n", 2, 3⟩] := by
  refine ⟨scanString_eq_none_iff, ?_, rfl⟩
  intro cs esc line col buf rest l2 c2 h
  exact (scanString_spec cs esc line col buf rest l2 c2 h).1

/-- Claim C10: on any token sequence produced by `lex`, `translate` can
only fail with one of the two brace-balance errors — every kind the lexer
emits has a handling rule, so the unexpected-token branch is unreachable
for lexer output. -/
theorem claim10 (s : String) (ts : List Token) (hlex : lex s = .ok ts)
    (e : ParseErr) (htr : translate ts = .error e) :
    e = .unmatchedClose ∨ e = .unclosed := by
  unfold translate at htr
  cases hrun : runTranslate ts with
  | error e2 =>
    rw [hrun] at htr
    injection htr with h2
    subst h2
    exact Or.inl (runFrom_error_known ts TState.init e2
      (fun t ht => (lex_tokens_ok hlex t ht).1) hrun)
  | ok st =>
    rw [hrun] at htr
    have htr2 : (if st.emit.indent ≠ 0 then Except.error ParseErr.unclosed
        else Except.ok st.emit.getOutput) = Except.error e := htr
    split_ifs at htr2 with hz
    injection htr2 with h2
    exact Or.inr h2.symm

/-- Witness for C10 at the source `\x7d`, where translate fails with the
unmatched-close error. -/
theorem claim10_witness :
    lex "\x7d" = .ok [⟨"RBRACE", "\x7d", 1, 1⟩, ⟨"NEWLINE", "\n", 1, 2⟩] ∧
    translate [⟨"RBRACE", "\x7d", 1, 1⟩, ⟨"NEWLINE", "\n", 1, 2⟩] =
      .error .unmatchedClose ∧
    (ParseErr.unmatchedClose = .unmatchedClose ∨ ParseErr.unmatchedClose = .unclosed) :=
  ⟨rfl, rfl,
    claim10 "\x7d" [⟨"RBRACE", "\x7d", 1, 1⟩, ⟨"NEWLINE", "\n", 1, 2⟩] rfl
      .unmatchedClose rfl⟩

/-- Witness for C9: on the two remaining characters `a"` of a string
literal the scanner consumes everything up to the closing quote. -/
theorem claim9_witness :
    ('a' :: '"' :: ([] : List Char)) = ['a', '"'] ++ [] :=
  claim9.2.1 ['a', '"'] false 1 2 ['a', '"'] [] 1 4 rfl

end MineLang
